import Mathlib

/-!
Verification of the websocket/UDP relay server (`main.go`).

Go strings are byte sequences; we model them as `List Nat` (each element a
byte value).  `gostr` converts an ASCII Lean string literal to this
representation (all literals appearing in the source are ASCII, where a
character is a single byte equal to its code point).

Clients are identified by abstract ids (`Nat`), standing for the distinct
`*Client` pointers of the Go program.  A room's membership map
`map[*Client]bool` (only inserted with value `true`, iterated by key) is
modelled as a `Finset Nat`.  Each client's bounded outbound channel
`sendCh chan []byte` of capacity 256 is a `ClientQ`; the whole queue state
of the system is a function from client id to `ClientQ`.
-/

/-- Go byte string: a list of byte values. -/
abbrev GoStr := List Nat

/-- Convert an ASCII Lean string literal to a Go byte string. -/
def gostr (s : String) : GoStr := s.data.map Char.toNat

/-- A message is a byte string. -/
abbrev Msg := GoStr

/-- A client's bounded outbound queue (`sendCh chan []byte` with capacity
`cap`; in `HandleWebSocket` the capacity is 256). `buf` is the buffered
contents, oldest first. -/
structure ClientQ where
  cap : Nat
  buf : List Msg
  deriving DecidableEq, Repr

/-- The non-blocking send `select { case c.sendCh <- msg: default: }` from
`Room.broadcast`: append when the buffer has space, silently drop otherwise. -/
def offer (q : ClientQ) (m : Msg) : ClientQ :=
  if q.buf.length < q.cap then { q with buf := q.buf ++ [m] } else q

/-- The `Room` struct from main.go: a name and the membership set `clients`. -/
structure Room where
  name : GoStr
  clients : Finset Nat
  deriving DecidableEq

/-- Membership add, `func (r *Room) join(c *Client)` — `r.clients[c] = true`. -/
def Room.join (r : Room) (c : Nat) : Room :=
  { r with clients := insert c r.clients }

/-- Membership removal, `func (r *Room) leave(c *Client)` — `delete(r.clients, c)`. -/
def Room.leave (r : Room) (c : Nat) : Room :=
  { r with clients := r.clients.erase c }

/-- Fan-out, `func (r *Room) broadcast(sender *Client, msg []byte)`: for every client
in the room other than `sender`, offer `msg` to its queue (non-blocking,
drop-on-full).  `sender = none` models a nil sender pointer (the UDP
injection path), in which case every member passes the `c != sender` test. -/
def Room.broadcast (r : Room) (sender : Option Nat) (msg : Msg)
    (qs : Nat → ClientQ) : Nat → ClientQ :=
  fun c => if c ∈ r.clients ∧ some c ≠ sender then offer (qs c) msg else qs c

/-- The `Hub` from main.go: the room registry, keyed by name.  The Go map is
modelled as an association list (insertion order; lookup by key). -/
structure Hub where
  rooms : List (GoStr × Room)

/-- Lookup in the hub's map. -/
def findRoom : List (GoStr × Room) → GoStr → Option Room
  | [], _ => none
  | (k, r) :: rest, name => if k = name then some r else findRoom rest name

/-- Room resolution, `func (h *Hub) getRoom(name string) *Room`: return the room registered
under `name`, creating and registering an empty one when absent. -/
def Hub.getRoom (h : Hub) (name : GoStr) : Room × Hub :=
  match findRoom h.rooms name with
  | some r => (r, h)
  | none =>
    let r : Room := { name := name, clients := ∅ }
    (r, ⟨h.rooms ++ [(name, r)]⟩)

/-!
String helpers from the Go standard library, at byte level.  Go iterates
strings by rune; every delimiter used by main.go (`'/'`, `';'`, `':'`, the
cutset `"/ "`, ASCII whitespace) is a single ASCII byte, and bytes of a
multi-byte UTF-8 rune are all `≥ 0x80`, so byte-level scanning splits and
trims at exactly the same positions as Go's rune-level scanning.
-/

/-- ASCII whitespace recognised by `strings.TrimSpace` (space and the
control range TAB..CR). -/
def goIsSpace (b : Nat) : Bool := b = 32 || (9 ≤ b && b ≤ 13)

/-- Go's `strings.TrimSpace`: strip whitespace bytes from both ends. -/
def goTrimSpace (s : GoStr) : GoStr :=
  ((s.dropWhile goIsSpace).reverse.dropWhile goIsSpace).reverse

/-- Go's `strings.Trim(s, "/ ")`: strip `'/'` (47) and `' '` (32) from both ends. -/
def goTrimSlashSpace (s : GoStr) : GoStr :=
  let inCut : Nat → Bool := fun b => b = 47 || b = 32
  ((s.dropWhile inCut).reverse.dropWhile inCut).reverse

/-- Go's `strings.ToUpper` restricted to ASCII letters (the keys compared against
are the ASCII strings `"ROOM"` and `"USER"`). -/
def goToUpper (s : GoStr) : GoStr :=
  s.map (fun b => if 97 ≤ b && b ≤ 122 then b - 32 else b)

/-- Go's `strings.TrimPrefix(s, pre)`: drop `pre` when it is a prefix, else `s`. -/
def trimPrefixGo (pre s : GoStr) : GoStr :=
  if pre.isPrefixOf s then s.drop pre.length else s

/-- Go's `strings.Split(s, sep)` for a one-byte separator, on a nonempty string
(main.go only splits nonempty headers): cut at every occurrence of `sep`. -/
def goSplitByte : GoStr → Nat → GoStr → List GoStr
  | [], _, cur => [cur]
  | b :: rest, sep, cur =>
    if b = sep then cur :: goSplitByte rest sep []
    else goSplitByte rest sep (cur ++ [b])

/-- Go's `strings.SplitN(s, sep, 2)` for a one-byte separator: split at the first
occurrence only; a string without the separator yields a singleton. -/
def goSplitN2 : GoStr → Nat → GoStr → List GoStr
  | [], _, cur => [cur]
  | b :: rest, sep, cur =>
    if b = sep then [cur, rest] else goSplitN2 rest sep (cur ++ [b])

/-- The per-part body of the header loop in `parseUDPFrame`: trim the part,
split at the first `':'`; skip it unless that yields exactly a key and a
value; uppercase the trimmed key; a `ROOM` key sets the room, a `USER` key
sets the user, any other key leaves the accumulator untouched. -/
def applyHeaderPart (acc : GoStr × GoStr) (part : GoStr) : GoStr × GoStr :=
  match goSplitN2 (goTrimSpace part) 58 [] with
  | [k0, v0] =>
    let k := goToUpper (goTrimSpace k0)
    let v := goTrimSpace v0
    if k = gostr "ROOM" then (v, acc.2)
    else if k = gostr "USER" then (acc.1, v)
    else acc
  | _ => acc

/-- Go's `strings.Index(s, "\n")` combined with the two slicings `s[:i]` and
`s[i+1:]`: the bytes before the first newline and the bytes after it, or
`none` when no newline occurs. -/
def splitAtNewline : GoStr → Option (GoStr × GoStr)
  | [] => none
  | b :: rest =>
    if b = 10 then some ([], rest)
    else (splitAtNewline rest).map (fun hp => (b :: hp.1, hp.2))

/-- The frame parser `func parseUDPFrame(b []byte) (room, user string, payload []byte)`:
when the datagram contains a newline, everything before the first one is
the header (scanned with `applyHeaderPart` over its `';'`-separated parts)
and everything after it the payload; without a newline the whole datagram
is the payload and room/user stay empty. -/
def parseUDPFrame (b : GoStr) : GoStr × GoStr × GoStr :=
  match splitAtNewline b with
  | some (header, payload) =>
    let ru := (goSplitByte header 59 []).foldl applyHeaderPart ([], [])
    (ru.1, ru.2, payload)
  | none => ([], [], b)

/-- The defaulting performed by `StartUDPRelay` right after parsing: an empty
room becomes `"global"`, an empty username becomes the freshly generated
`udp-<nanos>` identifier (passed in as `fresh`). -/
def udpDefaults (room user fresh : GoStr) : GoStr × GoStr :=
  (if room = [] then gostr "global" else room,
   if user = [] then fresh else user)

/-- The scanning loop of `func splitTrim(s string, sep rune) []string`: cut at each
separator, trimming every piece with `strings.Trim(cur, "/ ")`; a nonempty
trailing piece is flushed too (`if cur.Len() > 0`). -/
def splitTrimGo (sep : Nat) : GoStr → GoStr → List GoStr
  | cur, [] => if 0 < cur.length then [goTrimSlashSpace cur] else []
  | cur, b :: rest =>
    if b = sep then goTrimSlashSpace cur :: splitTrimGo sep [] rest
    else splitTrimGo sep (cur ++ [b]) rest

/-- The full `func splitTrim`: trim the whole string, return nil when empty, else scan
with `splitTrimGo` and drop the empty pieces (the `filtered` loop). -/
def splitTrim (s : GoStr) (sep : Nat) : List GoStr :=
  let t := goTrimSpace s
  if t = [] then [] else (splitTrimGo sep [] t).filter (· ≠ [])

/-- The path parsing of `HandleWebSocket` (lines 111-120): strip the `/ws`
prefix, split with `splitTrim` on `'/'`, then default the room to
`"global"` and the username to the generated `anon-<nanos>` identifier
(passed in as `anon`) unless the corresponding part exists and is
nonempty. -/
def wsRoomUser (urlPath : GoStr) (anon : GoStr) : GoStr × GoStr :=
  let path := trimPrefixGo (gostr "/ws") urlPath
  let parts := splitTrim path 47
  let roomName :=
    if 1 ≤ parts.length ∧ parts.getD 0 [] ≠ [] then parts.getD 0 []
    else gostr "global"
  let username :=
    if 2 ≤ parts.length ∧ parts.getD 1 [] ≠ [] then parts.getD 1 []
    else anon
  (roomName, username)

/-!
The envelope codec.  `MarshalEnvelope` in main.go builds an
`Envelope{Room, Username, Ts, Payload}` and runs `json.Marshal` on it;
the functional test decodes with `json.Unmarshal` into the same struct.
We model `json.Marshal` byte-for-byte on this struct: fields in struct
order with their tag names, strings escaped as Go's encoder does (with its
default HTML escaping of `<`, `>`, `&`), the `[]byte` payload as a padded
standard-base64 string, and the timestamp in decimal (`Ts` is a
`time.Now().UnixNano()` value, non-negative, modelled as `Nat`).
`unmarshalEnvelope` models the stdlib decoder on the documents this
encoder produces (fixed field order; `\uXXXX` escapes below 0x80, which
covers everything the encoder emits).
-/

/-- The envelope struct (room, username, ts, payload). -/
structure Envelope where
  room : GoStr
  username : GoStr
  ts : Nat
  payload : List Nat
  deriving DecidableEq, Repr

/-- Lowercase hex digit byte for a value below 16. -/
def hexDigit (n : Nat) : Nat := if n < 10 then 48 + n else 87 + n

/-- Go's JSON string escaping of one byte: `\"`, `\\`, `\n`, `\r`, `\t` get
short escapes; other control bytes and the HTML-escaped `<` (60), `>` (62),
`&` (38) become `\u00xx`; everything else is emitted raw. -/
def escByte (b : Nat) : GoStr :=
  if b = 34 then [92, 34]
  else if b = 92 then [92, 92]
  else if b = 10 then [92, 110]
  else if b = 13 then [92, 114]
  else if b = 9 then [92, 116]
  else if b < 32 ∨ b = 60 ∨ b = 62 ∨ b = 38 then
    [92, 117, 48, 48, hexDigit (b / 16), hexDigit (b % 16)]
  else [b]

/-- Escape a whole string for a JSON string literal. -/
def escStr : GoStr → GoStr
  | [] => []
  | b :: s => escByte b ++ escStr s

/-- Value of a hex digit byte (both cases accepted, as the stdlib does). -/
def hexVal (c : Nat) : Option Nat :=
  if 48 ≤ c && c ≤ 57 then some (c - 48)
  else if 97 ≤ c && c ≤ 102 then some (c - 87)
  else if 65 ≤ c && c ≤ 70 then some (c - 55)
  else none

/-- JSON string body scanner: consume bytes after the opening quote up to
the unescaped closing quote, resolving escapes; returns the decoded bytes
and the remainder after the closing quote.  Control bytes in the raw
stream and malformed escapes are rejected.  (`\uXXXX` is resolved for
code points below 0x80 — the only ones the encoder above emits.) -/
def parseJStr : GoStr → Option (GoStr × GoStr)
  | [] => none
  | b :: rest =>
    if b = 34 then some ([], rest)
    else if b = 92 then
      match rest with
      | [] => none
      | e :: rest2 =>
        if e = 117 then
          match rest2 with
          | h1 :: h2 :: h3 :: h4 :: rest3 => do
            let v1 ← hexVal h1
            let v2 ← hexVal h2
            let v3 ← hexVal h3
            let v4 ← hexVal h4
            let code := ((v1 * 16 + v2) * 16 + v3) * 16 + v4
            if code < 128 then
              (parseJStr rest3).map (fun sr => (code :: sr.1, sr.2))
            else none
          | _ => none
        else do
          let c ← (if e = 34 then some 34 else if e = 92 then some 92
            else if e = 47 then some 47 else if e = 98 then some 8
            else if e = 102 then some 12 else if e = 110 then some 10
            else if e = 114 then some 13 else if e = 116 then some 9
            else none)
          (parseJStr rest2).map (fun sr => (c :: sr.1, sr.2))
    else if b < 32 then none
    else (parseJStr rest).map (fun sr => (b :: sr.1, sr.2))

/-- Standard base64 alphabet: sextet value to character byte. -/
def b64char (n : Nat) : Nat :=
  if n < 26 then 65 + n
  else if n < 52 then 71 + n
  else if n < 62 then n - 4
  else if n = 62 then 43 else 47

/-- Standard padded base64 encoding of a byte sequence (what `json.Marshal`
emits for a `[]byte` field), three input bytes to four output characters. -/
def b64enc : List Nat → GoStr
  | [] => []
  | [b0] => [b64char (b0 / 4), b64char (b0 % 4 * 16), 61, 61]
  | [b0, b1] =>
    [b64char (b0 / 4), b64char (b0 % 4 * 16 + b1 / 16), b64char (b1 % 16 * 4), 61]
  | b0 :: b1 :: b2 :: rest =>
    b64char (b0 / 4) :: b64char (b0 % 4 * 16 + b1 / 16) ::
      b64char (b1 % 16 * 4 + b2 / 64) :: b64char (b2 % 64) :: b64enc rest

/-- Character byte back to sextet value. -/
def b64val (c : Nat) : Option Nat :=
  if 65 ≤ c && c ≤ 90 then some (c - 65)
  else if 97 ≤ c && c ≤ 122 then some (c - 71)
  else if 48 ≤ c && c ≤ 57 then some (c + 4)
  else if c = 43 then some 62
  else if c = 47 then some 63
  else none

/-- Standard padded base64 decoding (groups of four characters, the last
group possibly padded with `'='` = 61). -/
def b64dec : GoStr → Option (List Nat)
  | [] => some []
  | c0 :: c1 :: c2 :: c3 :: rest => do
    let v0 ← b64val c0
    let v1 ← b64val c1
    if c2 = 61 ∧ c3 = 61 ∧ rest = [] then
      some [v0 * 4 + v1 / 16]
    else if c3 = 61 ∧ rest = [] then do
      let v2 ← b64val c2
      some [v0 * 4 + v1 / 16, v1 % 16 * 16 + v2 / 4]
    else do
      let v2 ← b64val c2
      let v3 ← b64val c3
      let tail ← b64dec rest
      some ((v0 * 4 + v1 / 16) :: (v1 % 16 * 16 + v2 / 4) :: (v2 % 4 * 64 + v3) :: tail)
  | _ => none

/-- Decimal digit bytes of a natural number (what `json.Marshal` emits for
the non-negative `Ts` field). -/
def natBytes (n : Nat) : GoStr :=
  if n < 10 then [48 + n]
  else natBytes (n / 10) ++ [48 + n % 10]
decreasing_by omega

/-- An ASCII decimal digit byte. -/
def isDigitByte (b : Nat) : Bool := 48 ≤ b && b ≤ 57

/-- JSON number scanner for the non-negative timestamps at hand: read a
nonempty run of digit bytes, return its value and the remainder. -/
def parseNatGo (s : GoStr) : Option (Nat × GoStr) :=
  let ds := s.takeWhile isDigitByte
  if ds = [] then none
  else some (ds.foldl (fun a d => a * 10 + (d - 48)) 0, s.dropWhile isDigitByte)

/-- Consume an expected literal token. -/
def expectTok (tok s : GoStr) : Option GoStr :=
  if tok.isPrefixOf s then some (s.drop tok.length) else none

/-- The encoder `func MarshalEnvelope(room, user string, payload []byte) []byte`: build
the envelope (timestamp passed in for `time.Now().UnixNano()`) and encode
it as `json.Marshal` does. -/
def MarshalEnvelope (room user : GoStr) (ts : Nat) (payload : List Nat) : GoStr :=
  gostr "\x7b\"room\":\"" ++ escStr room
    ++ gostr "\",\"username\":\"" ++ escStr user
    ++ gostr "\",\"ts\":" ++ natBytes ts
    ++ gostr ",\"payload\":\"" ++ b64enc payload
    ++ gostr "\"\x7d"

/-- Decoding, `json.Unmarshal` into `Envelope`, on the documents `MarshalEnvelope`
produces: the four fields in struct order, strings unescaped, the payload
base64-decoded, the timestamp parsed as a decimal number. -/
def unmarshalEnvelope (s : GoStr) : Option Envelope := do
  let s1 ← expectTok (gostr "\x7b\"room\":\"") s
  let (room, s2) ← parseJStr s1
  let s3 ← expectTok (gostr ",\"username\":\"") s2
  let (user, s4) ← parseJStr s3
  let s5 ← expectTok (gostr ",\"ts\":") s4
  let (ts, s6) ← parseNatGo s5
  let s7 ← expectTok (gostr ",\"payload\":\"") s6
  let (p64, s8) ← parseJStr s7
  let s9 ← expectTok (gostr "\x7d") s8
  if s9 = [] then
    let payload ← b64dec p64
    some ⟨room, user, ts, payload⟩
  else none

/-!
The UDP bridge (`StartUDPRelay`).  The peer registry
`rooms map[string]map[string]*peer` is modelled as nested association
lists; peer addresses are abstract ids (`Nat`).  The body of the receive
loop for one datagram becomes a pure step function; the nondeterministic
`time.Now()` readings and the generated `udp-<nanos>` username are passed
in as parameters.
-/

/-- A datagram peer: address and last-seen time. -/
structure Peer where
  addr : Nat
  last : Nat
  deriving DecidableEq, Repr

/-- Go map lookup on an association list. -/
def getAssoc {β : Type} : List (GoStr × β) → GoStr → Option β
  | [], _ => none
  | (k0, v0) :: rest, k => if k0 = k then some v0 else getAssoc rest k

/-- Go map assignment on an association list: overwrite the entry when the
key exists, append otherwise. -/
def setAssoc {β : Type} : List (GoStr × β) → GoStr → β → List (GoStr × β)
  | [], k, v => [(k, v)]
  | (k0, v0) :: rest, k, v =>
    if k0 = k then (k0, v) :: rest else (k0, v0) :: setAssoc rest k v

/-- The `room -> username -> peer` registry of the bridge. -/
abbrev PeerTable := List (GoStr × List (GoStr × Peer))

/-- Result of handling one datagram: the updated peer table, the datagrams
written back out (payload bytes with destination address), the hub after
room resolution, and the stream clients' queues after the injection. -/
structure DatagramResult where
  table : PeerTable
  sends : List (GoStr × Nat)
  hub : Hub
  queues : Nat → ClientQ

/-- One iteration of the `StartUDPRelay` receive loop (lines 216-239):
parse the frame, default room/username, upsert the sender's peer entry,
forward the raw payload to every other peer in the room, then inject the
payload into the websocket room as an envelope broadcast with nil sender. -/
def handleDatagram (tbl : PeerTable) (hub : Hub) (qs : Nat → ClientQ)
    (data : GoStr) (remote : Nat) (fresh : GoStr) (nowPeer nowEnv : Nat) :
    DatagramResult :=
  let rup := parseUDPFrame data
  let ru := udpDefaults rup.1 rup.2.1 fresh
  let roomName := ru.1
  let username := ru.2
  let payload := rup.2.2
  let entries := (getAssoc tbl roomName).getD []
  let entries2 := setAssoc entries username ⟨remote, nowPeer⟩
  let tbl2 := setAssoc tbl roomName entries2
  let sends := entries2.filterMap
    (fun up => if up.1 = username then none else some (payload, up.2.addr))
  let env := MarshalEnvelope roomName username nowEnv payload
  let rh := hub.getRoom roomName
  { table := tbl2, sends := sends, hub := rh.2,
    queues := rh.1.broadcast none env qs }

/-!
Client teardown (`HandleWebSocket`, lines 164-167).  After the reader loop
exits, the handler runs `room.leave(client)` and then `close(client.sendCh)`
in straight-line code.  We model the client's lifecycle as a transition
system over the room membership set, the queue's closed flag and a program
counter selecting the next cleanup action; each action is guarded by the
counter, so it can fire at most once and only in program order.
-/

/-- Lifecycle state of one client: membership set of its room, whether its
outbound queue has been closed, and the cleanup program counter
(0 = running, 1 = after `room.leave`, 2 = after `close(sendCh)`). -/
structure LifeState where
  room : Finset Nat
  closed : Bool
  pc : Nat
  deriving DecidableEq

/-- The two cleanup actions of the handler, in program order: first
`room.leave(client)`, then `close(client.sendCh)`. -/
inductive cleanupStep (c : Nat) : LifeState → LifeState → Prop
  | leave (s : LifeState) : s.pc = 0 →
      cleanupStep c s ⟨s.room.erase c, s.closed, 1⟩
  | closeCh (s : LifeState) : s.pc = 1 →
      cleanupStep c s ⟨s.room, true, 2⟩

/-- State right after `room.join(client)`: the client is a member, its
queue is open, no cleanup action has run. -/
def lifeInit (c : Nat) (others : Finset Nat) : LifeState :=
  ⟨insert c others, false, 0⟩

/-- States reachable from the joined state by cleanup actions. -/
def LifeReachable (c : Nat) (others : Finset Nat) (s : LifeState) : Prop :=
  Relation.ReflTransGen (cleanupStep c) (lifeInit c others) s

/-!
Theorems.
-/

/-- C1: for every room state and message, `Room.broadcast sender msg` offers
`msg` to the outbound queue of every current member other than the sender,
never touches the sender's own queue, and with an absent (`nil`) sender
offers `msg` to every current member. -/
theorem broadcast_delivery (r : Room) (sender : Option Nat) (msg : Msg)
    (qs : Nat → ClientQ) (c : Nat) (hc : c ∈ r.clients) :
    (some c ≠ sender → r.broadcast sender msg qs c = offer (qs c) msg) ∧
    (sender = some c → r.broadcast sender msg qs c = qs c) ∧
    (sender = none → r.broadcast sender msg qs c = offer (qs c) msg) := by
  refine ⟨fun h => ?_, fun h => ?_, fun h => ?_⟩
  · simp [Room.broadcast, hc, h]
  · subst h; simp [Room.broadcast]
  · subst h; simp [Room.broadcast, hc]

/-- Witness for C1 in a two-member room: the non-sending member's queue is
offered the message, the sender's queue is left untouched. -/
theorem broadcast_delivery_witness :
    Room.broadcast ⟨gostr "g", insert 1 (insert 2 ∅)⟩ (some 1) (gostr "m")
        (fun _ => ⟨256, []⟩) 2 = offer ⟨256, []⟩ (gostr "m") ∧
    Room.broadcast ⟨gostr "g", insert 1 (insert 2 ∅)⟩ (some 1) (gostr "m")
        (fun _ => ⟨256, []⟩) 1 = ⟨256, []⟩ :=
  ⟨(broadcast_delivery ⟨gostr "g", insert 1 (insert 2 ∅)⟩ (some 1) (gostr "m")
      (fun _ => ⟨256, []⟩) 2 (by decide)).1 (by decide),
   (broadcast_delivery ⟨gostr "g", insert 1 (insert 2 ∅)⟩ (some 1) (gostr "m")
      (fun _ => ⟨256, []⟩) 1 (by decide)).2.1 rfl⟩

/-- C2: a recipient whose bounded queue is full at broadcast time keeps its
queue unchanged (the message is dropped for it alone), while every other
eligible recipient with queue space still receives the message. -/
theorem broadcast_drop (r : Room) (sender : Option Nat) (msg : Msg)
    (qs : Nat → ClientQ) (c : Nat) (hc : c ∈ r.clients) (hs : some c ≠ sender)
    (hfull : (qs c).cap ≤ (qs c).buf.length) :
    r.broadcast sender msg qs c = qs c ∧
    ∀ d ∈ r.clients, some d ≠ sender → (qs d).buf.length < (qs d).cap →
      r.broadcast sender msg qs d = { qs d with buf := (qs d).buf ++ [msg] } := by
  constructor
  · simp only [Room.broadcast, if_pos (And.intro hc hs), offer]
    rw [if_neg (by omega)]
  · intro d hd hds hspace
    simp only [Room.broadcast, if_pos (And.intro hd hds), offer]
    rw [if_pos hspace]

/-- Witness for C2: in a three-member room with sender 1, the saturated
member 2 (capacity 1, one buffered message) keeps its queue, while member 3
with space receives the message. -/
theorem broadcast_drop_witness :
    Room.broadcast ⟨gostr "g", insert 1 (insert 2 (insert 3 ∅))⟩ (some 1) (gostr "m")
        (fun d => if d = 2 then ⟨1, [gostr "x"]⟩ else ⟨256, []⟩) 2
      = ⟨1, [gostr "x"]⟩ ∧
    Room.broadcast ⟨gostr "g", insert 1 (insert 2 (insert 3 ∅))⟩ (some 1) (gostr "m")
        (fun d => if d = 2 then ⟨1, [gostr "x"]⟩ else ⟨256, []⟩) 3
      = ⟨256, [gostr "m"]⟩ :=
  ⟨((broadcast_drop ⟨gostr "g", insert 1 (insert 2 (insert 3 ∅))⟩ (some 1) (gostr "m")
      (fun d => if d = 2 then ⟨1, [gostr "x"]⟩ else ⟨256, []⟩) 2
      (by decide) (by decide) (by decide)).1).trans (by decide),
   ((broadcast_drop ⟨gostr "g", insert 1 (insert 2 (insert 3 ∅))⟩ (some 1) (gostr "m")
      (fun d => if d = 2 then ⟨1, [gostr "x"]⟩ else ⟨256, []⟩) 2
      (by decide) (by decide) (by decide)).2 3
      (by decide) (by decide) (by decide)).trans (by decide)⟩

/-- A `findRoom` miss means the name is not a key of the map. -/
theorem findRoom_none_not_key (l : List (GoStr × Room)) (name : GoStr)
    (h : findRoom l name = none) : name ∉ l.map Prod.fst := by
  induction l with
  | nil => simp
  | cons kv rest ih =>
    simp only [findRoom] at h
    by_cases hk : kv.1 = name
    · rw [if_pos hk] at h; exact absurd h (by simp)
    · rw [if_neg hk] at h
      simp only [List.map_cons, List.mem_cons]
      exact fun hmem => hmem.elim (fun he => hk he.symm) (ih h)

/-- Looking up a freshly appended entry succeeds when the name was absent. -/
theorem findRoom_append (l : List (GoStr × Room)) (name : GoStr) (r : Room)
    (h : findRoom l name = none) : findRoom (l ++ [(name, r)]) name = some r := by
  induction l with
  | nil => simp [findRoom]
  | cons kv rest ih =>
    simp only [findRoom] at h ⊢
    by_cases hk : kv.1 = name
    · rw [if_pos hk] at h; exact absurd h (by simp)
    · rw [if_neg hk] at h ⊢; exact ih h

/-- C3: `Hub.getRoom` cannot fail and is idempotent: the returned room is
registered in the resulting hub under the requested name, calling again on
the resulting hub returns the very same room and hub, and when the hub's
keys are duplicate-free they stay so — at most one room is ever associated
with a given name. -/
theorem getRoom_spec (h : Hub) (name : GoStr) :
    findRoom (h.getRoom name).2.rooms name = some (h.getRoom name).1 ∧
    (h.getRoom name).2.getRoom name = ((h.getRoom name).1, (h.getRoom name).2) ∧
    ((h.rooms.map Prod.fst).Nodup → ((h.getRoom name).2.rooms.map Prod.fst).Nodup) := by
  rcases hf : findRoom h.rooms name with _ | r
  · have h1 : findRoom (h.rooms ++ [(name, ⟨name, ∅⟩)]) name = some ⟨name, ∅⟩ :=
      findRoom_append h.rooms name _ hf
    refine ⟨?_, ?_, ?_⟩
    · simp only [Hub.getRoom, hf]; exact h1
    · simp only [Hub.getRoom, hf, h1]
    · intro hnd
      simp only [Hub.getRoom, hf, List.map_append, List.map_cons, List.map_nil]
      exact List.Nodup.append hnd (List.nodup_singleton name)
        (by simp [List.disjoint_right, findRoom_none_not_key h.rooms name hf])
  · refine ⟨?_, ?_, fun hnd => ?_⟩
    · simp only [Hub.getRoom, hf]
    · simp only [Hub.getRoom, hf]
    · simpa only [Hub.getRoom, hf] using hnd

/-- Witness for C3 on the empty hub: the created room is found under its
name, and the resulting registry keys are duplicate-free. -/
theorem getRoom_spec_witness :
    findRoom (Hub.getRoom ⟨[]⟩ (gostr "a")).2.rooms (gostr "a")
      = some (Hub.getRoom ⟨[]⟩ (gostr "a")).1 ∧
    ((Hub.getRoom ⟨[]⟩ (gostr "a")).2.rooms.map Prod.fst).Nodup :=
  ⟨(getRoom_spec ⟨[]⟩ (gostr "a")).1,
   (getRoom_spec ⟨[]⟩ (gostr "a")).2.2 (by simp)⟩

/-- C7: `join` inserts into the membership set and is idempotent on members;
`leave` erases, is a no-op on non-members, decreases the member count by
exactly one for members, and after a `leave` no broadcast ever offers
anything to the departed client. -/
theorem join_leave_spec (r : Room) (c : Nat) :
    (r.join c).clients = insert c r.clients ∧
    (c ∈ r.clients → r.join c = r) ∧
    (r.leave c).clients = r.clients.erase c ∧
    (c ∉ r.clients → r.leave c = r) ∧
    (c ∈ r.clients → (r.leave c).clients.card + 1 = r.clients.card) ∧
    (∀ sender msg qs, (r.leave c).broadcast sender msg qs c = qs c) := by
  refine ⟨rfl, fun h => ?_, rfl, fun h => ?_, fun h => ?_, fun sender msg qs => ?_⟩
  · simp [Room.join, Finset.insert_eq_self.2 h]
  · simp [Room.leave, Finset.erase_eq_self.2 h]
  · have h1 := Finset.card_erase_of_mem h
    have h2 : 0 < r.clients.card := Finset.card_pos.2 ⟨c, h⟩
    simp only [Room.leave] at *
    omega
  · simp [Room.broadcast, Room.leave]

/-- Witness for C7 on a two-member room: joining an existing member changes
nothing, leaving drops the count from 2 to 1, and a broadcast after the
leave does not touch the departed client's queue. -/
theorem join_leave_spec_witness :
    Room.join ⟨gostr "g", insert 1 (insert 2 ∅)⟩ 1 = ⟨gostr "g", insert 1 (insert 2 ∅)⟩ ∧
    (Room.leave ⟨gostr "g", insert 1 (insert 2 ∅)⟩ 1).clients.card + 1
      = (insert 1 (insert 2 ∅) : Finset Nat).card ∧
    Room.broadcast (Room.leave ⟨gostr "g", insert 1 (insert 2 ∅)⟩ 1) (some 2)
        (gostr "m") (fun _ => ⟨256, []⟩) 1 = ⟨256, []⟩ :=
  ⟨(join_leave_spec ⟨gostr "g", insert 1 (insert 2 ∅)⟩ 1).2.1 (by decide),
   (join_leave_spec ⟨gostr "g", insert 1 (insert 2 ∅)⟩ 1).2.2.2.2.1 (by decide),
   (join_leave_spec ⟨gostr "g", insert 1 (insert 2 ∅)⟩ 1).2.2.2.2.2 (some 2)
     (gostr "m") (fun _ => ⟨256, []⟩)⟩

/-- A datagram without a newline byte has no header position. -/
theorem splitAtNewline_none (b : GoStr) (h : (10 : Nat) ∉ b) :
    splitAtNewline b = none := by
  induction b with
  | nil => rfl
  | cons x xs ih =>
    simp only [List.mem_cons, not_or] at h
    have hx : ¬ x = 10 := fun he => h.1 he.symm
    simp only [splitAtNewline, if_neg hx, ih h.2]
    rfl

/-- The first newline byte splits a datagram into its first line and the
rest. -/
theorem splitAtNewline_append (pre post : GoStr) (h : (10 : Nat) ∉ pre) :
    splitAtNewline (pre ++ 10 :: post) = some (pre, post) := by
  induction pre with
  | nil => simp [splitAtNewline]
  | cons x xs ih =>
    simp only [List.mem_cons, not_or] at h
    have hx : ¬ x = 10 := fun he => h.1 he.symm
    have ih2 := ih h.2
    simp only [List.cons_append, splitAtNewline, if_neg hx, List.append_eq,
      ih2, Option.map_some']

/-- C5: a datagram with no line break is treated entirely as payload with
empty room and user; a header part is recognised through its trimmed,
uppercased key — a `ROOM` key (any case) sets the room, a `USER` key sets
the user, and every other key leaves the accumulator untouched; and the
bridge's defaulting maps an absent room to `global` and an absent username
to the freshly generated identifier. -/
theorem parseUDPFrame_spec :
    (∀ b : GoStr, (10 : Nat) ∉ b → parseUDPFrame b = ([], [], b)) ∧
    (∀ acc : GoStr × GoStr, ∀ part k0 v0 : GoStr,
      goSplitN2 (goTrimSpace part) 58 [] = [k0, v0] →
      (goToUpper (goTrimSpace k0) = gostr "ROOM" →
        applyHeaderPart acc part = (goTrimSpace v0, acc.2)) ∧
      (goToUpper (goTrimSpace k0) = gostr "USER" →
        applyHeaderPart acc part = (acc.1, goTrimSpace v0)) ∧
      (goToUpper (goTrimSpace k0) ≠ gostr "ROOM" →
       goToUpper (goTrimSpace k0) ≠ gostr "USER" →
        applyHeaderPart acc part = acc)) ∧
    (∀ user fresh : GoStr,
      udpDefaults [] user fresh = (gostr "global", if user = [] then fresh else user)) ∧
    (∀ room fresh : GoStr, udpDefaults room [] fresh
      = (if room = [] then gostr "global" else room, fresh)) := by
  refine ⟨fun b h => ?_, fun acc part k0 v0 hsplit => ?_, fun user fresh => rfl,
    fun room fresh => rfl⟩
  · simp only [parseUDPFrame, splitAtNewline_none b h]
  · refine ⟨fun hk => ?_, fun hk => ?_, fun hk1 hk2 => ?_⟩
    · simp [applyHeaderPart, hsplit, hk]
    · have hne : gostr "USER" ≠ gostr "ROOM" := by decide
      simp [applyHeaderPart, hsplit, hk, hne]
    · simp [applyHeaderPart, hsplit, hk1, hk2]

/-- Witness for C5: a headerless datagram passes through whole; a
mixed-case `RoOm` key with padding is recognised and an unknown key is
ignored; both defaults fire on an empty parse result. -/
theorem parseUDPFrame_spec_witness :
    parseUDPFrame (gostr "hi") = ([], [], gostr "hi") ∧
    applyHeaderPart ([], []) (gostr " RoOm: a ") = (gostr "a", []) ∧
    applyHeaderPart (gostr "r", gostr "u") (gostr "color:red") = (gostr "r", gostr "u") ∧
    udpDefaults [] [] (gostr "udp-1") = (gostr "global", gostr "udp-1") :=
  ⟨parseUDPFrame_spec.1 (gostr "hi") (by decide),
   ((parseUDPFrame_spec.2.1 ([], []) (gostr " RoOm: a ") (gostr "RoOm") (gostr " a")
      (by decide)).1 (by decide)).trans (by decide),
   ((parseUDPFrame_spec.2.1 (gostr "r", gostr "u") (gostr "color:red") (gostr "color")
      (gostr "red") (by decide)).2.2 (by decide) (by decide)),
   (parseUDPFrame_spec.2.2.1 [] (gostr "udp-1")).trans (by decide)⟩

/-- C9: whenever a datagram contains a newline, the whole first line is
consumed as a header — whatever it contains — and the returned payload is
exactly the bytes after the first newline, so a headerless binary payload
containing a newline is truncated at that newline. -/
theorem parseUDPFrame_truncates_at_newline (pre post : GoStr)
    (h : (10 : Nat) ∉ pre) :
    (parseUDPFrame (pre ++ 10 :: post)).2.2 = post := by
  simp only [parseUDPFrame, splitAtNewline_append pre post h]

/-- Witness for C9: the binary datagram `0x41 0x42 0x0a 0x00 0xc8` — two
junk header bytes with no key-value pair, a newline, then two payload
bytes — loses its first three bytes. -/
theorem parseUDPFrame_truncates_witness :
    (parseUDPFrame ([65, 66] ++ 10 :: [0, 200])).2.2 = [0, 200] :=
  parseUDPFrame_truncates_at_newline [65, 66] [0, 200] (by decide)

/-- C10: `splitTrim` never returns an empty segment, and on the stream path
`/ws//alice` — empty room segment, nonempty second segment — the handler
takes `alice` as the room name and falls back to the generated anonymous
username. -/
theorem splitTrim_spec :
    (∀ (s : GoStr) (sep : Nat), [] ∉ splitTrim s sep) ∧
    (∀ anon : GoStr, wsRoomUser (gostr "/ws//alice") anon = (gostr "alice", anon)) := by
  constructor
  · intro s sep
    simp only [splitTrim]
    split
    · simp
    · intro hmem
      have := List.of_mem_filter hmem
      simp at this
  · intro anon
    have hp : splitTrim (trimPrefixGo (gostr "/ws") (gostr "/ws//alice")) 47
        = [gostr "alice"] := by decide
    simp only [wsRoomUser, hp]
    rw [if_pos (by decide), if_neg (by decide)]
    rfl

/-- Witness for C10: the concrete endpoint `/ws//alice` with a concrete
generated username, plus an empty-segment check on a concrete path. -/
theorem splitTrim_spec_witness :
    wsRoomUser (gostr "/ws//alice") (gostr "anon-7") = (gostr "alice", gostr "anon-7") ∧
    [] ∉ splitTrim (gostr "//x") 47 :=
  ⟨splitTrim_spec.2 (gostr "anon-7"), splitTrim_spec.1 (gostr "//x") 47⟩

/-- C8: along every execution of the client teardown, the outbound queue is
closed only after the client has left its room — in every reachable state a
closed queue implies the client is no longer a member — and every cleanup
action strictly advances the program counter, so each action runs at most
once and in the fixed order leave-then-close. -/
theorem teardown_order (c : Nat) (others : Finset Nat) :
    (∀ s, LifeReachable c others s → s.closed = true → c ∉ s.room) ∧
    (∀ s s', cleanupStep c s s' → s.pc < s'.pc) := by
  constructor
  · have key : ∀ s, LifeReachable c others s →
        (s.closed = true → s.pc = 2) ∧ (1 ≤ s.pc → c ∉ s.room) ∧
        (s.pc = 0 → s.closed = false) := by
      intro s hs
      induction hs with
      | refl =>
        exact ⟨by simp [lifeInit], by simp [lifeInit], fun _ => rfl⟩
      | @tail mid fin hab hbc ih =>
        cases hbc with
        | leave h0 =>
          refine ⟨fun hcl => ?_, fun _ => Finset.not_mem_erase c mid.room,
            fun h1 => absurd h1 Nat.one_ne_zero⟩
          have hcl' : mid.closed = true := hcl
          exact (Bool.false_ne_true ((ih.2.2 h0).symm.trans hcl')).elim
        | closeCh h1 =>
          exact ⟨fun _ => rfl, fun _ => ih.2.1 (by omega),
            fun h0 => absurd h0 (Nat.succ_ne_zero 1)⟩
    exact fun s hs hcl => (key s hs).2.1 (by have := (key s hs).1 hcl; omega)
  · intro s s' hstep
    cases hstep with
    | leave h0 => show s.pc < 1; omega
    | closeCh h1 => show s.pc < 2; omega

/-- Witness for C8: the concrete two-step trace join → leave → close for
client 1 in a room shared with client 2 ends with the queue closed and
client 1 no longer a member. -/
theorem teardown_order_witness :
    (1 : Nat) ∉ (lifeInit 1 (insert 2 ∅)).room.erase 1 :=
  (teardown_order 1 (insert 2 ∅)).1 ⟨(lifeInit 1 (insert 2 ∅)).room.erase 1, true, 2⟩
    (Relation.ReflTransGen.tail
      (Relation.ReflTransGen.tail Relation.ReflTransGen.refl
        (cleanupStep.leave (lifeInit 1 (insert 2 ∅)) rfl))
      (cleanupStep.closeCh ⟨(lifeInit 1 (insert 2 ∅)).room.erase 1,
        (lifeInit 1 (insert 2 ∅)).closed, 1⟩ rfl)) rfl

/-- A Go map assignment makes the assigned key map to the assigned value. -/
theorem getAssoc_setAssoc_self {β : Type} (l : List (GoStr × β)) (k : GoStr) (v : β) :
    getAssoc (setAssoc l k v) k = some v := by
  induction l with
  | nil => simp [setAssoc, getAssoc]
  | cons kv rest ih =>
    by_cases hk : kv.1 = k
    · simp [setAssoc, getAssoc, hk]
    · simp only [setAssoc, getAssoc, if_neg hk, ih]

/-- C6: handling one datagram upserts the sender's peer entry, forwards the
raw payload verbatim to exactly the other peers known in the room, and
injects the same payload into the hub's matching room as a nil-sender
broadcast of the envelope carrying that room, username and timestamp. -/
theorem handleDatagram_spec (tbl : PeerTable) (hub : Hub) (qs : Nat → ClientQ)
    (data : GoStr) (remote : Nat) (fresh : GoStr) (nowPeer nowEnv : Nat) :
    let ru := udpDefaults (parseUDPFrame data).1 (parseUDPFrame data).2.1 fresh
    let payload := (parseUDPFrame data).2.2
    let res := handleDatagram tbl hub qs data remote fresh nowPeer nowEnv
    let entries2 := setAssoc ((getAssoc tbl ru.1).getD []) ru.2 ⟨remote, nowPeer⟩
    (getAssoc entries2 ru.2 = some ⟨remote, nowPeer⟩ ∧
      res.table = setAssoc tbl ru.1 entries2) ∧
    ((∀ u p, (u, p) ∈ entries2 → u ≠ ru.2 → (payload, p.addr) ∈ res.sends) ∧
     (∀ m, m ∈ res.sends →
        m.1 = payload ∧ ∃ u p, (u, p) ∈ entries2 ∧ u ≠ ru.2 ∧ p.addr = m.2)) ∧
    (res.hub = (hub.getRoom ru.1).2 ∧
     res.queues = (hub.getRoom ru.1).1.broadcast none
        (MarshalEnvelope ru.1 ru.2 nowEnv payload) qs) := by
  refine ⟨⟨getAssoc_setAssoc_self _ _ _, rfl⟩, ⟨?_, ?_⟩, rfl, rfl⟩
  · intro u p hmem hne
    exact List.mem_filterMap.2 ⟨(u, p), hmem, by simp [hne]⟩
  · intro m hm
    obtain ⟨⟨u, p⟩, hmem, hf⟩ := List.mem_filterMap.1 hm
    by_cases hu : u = (udpDefaults (parseUDPFrame data).1 (parseUDPFrame data).2.1 fresh).2
    · simp [hu] at hf
    · rw [if_neg hu] at hf
      have hf' := Option.some.inj hf
      refine ⟨?_, u, p, hmem, hu, ?_⟩
      · rw [← hf']
      · rw [← hf']

/-- Witness for C6: a `ROOM:alpha;USER:bob` datagram from address 9 in a
table already knowing carol at address 5 gets its payload forwarded to
carol. -/
theorem handleDatagram_spec_witness :
    (gostr "hi", 5) ∈ (handleDatagram
      [(gostr "alpha", [(gostr "carol", ⟨5, 0⟩)])] ⟨[]⟩ (fun _ => ⟨256, []⟩)
      (gostr "ROOM:alpha;USER:bob\nhi") 9 (gostr "udp-1") 10 11).sends :=
  (handleDatagram_spec [(gostr "alpha", [(gostr "carol", ⟨5, 0⟩)])] ⟨[]⟩
      (fun _ => ⟨256, []⟩) (gostr "ROOM:alpha;USER:bob\nhi") 9 (gostr "udp-1")
      10 11).2.1.1 (gostr "carol") ⟨5, 0⟩ (by decide) (by decide)

/-- Consuming an expected token from text that begins with it succeeds. -/
theorem expectTok_append (tok rest : GoStr) : expectTok tok (tok ++ rest) = some rest := by
  unfold expectTok
  rw [if_pos (by rw [ List.isPrefixOf_iff_prefix]; exact ⟨rest, rfl⟩), List.drop_left]

/-- Consuming a token that is the whole remaining text leaves nothing. -/
theorem expectTok_self (tok : GoStr) : expectTok tok tok = some [] := by
  have h := expectTok_append tok []
  rwa [List.append_nil] at h

/-- Variant of `expectTok_append` with the token's first byte exposed as a cons. -/
theorem expectTok_cons_append (c : Nat) (tok rest : GoStr) :
    expectTok (c :: tok) (c :: (tok ++ rest)) = some rest := by
  rw [← List.cons_append]
  exact expectTok_append (c :: tok) rest

/-- Hex decode inverts the hex digit of a value below 16. -/
theorem hexVal_hexDigit : ∀ n < 16, hexVal (hexDigit n) = some n := by decide

/-- Base64 decode inverts the alphabet character of a sextet value. -/
theorem b64val_b64char : ∀ n < 64, b64val (b64char n) = some n := by decide

/-- The base64 alphabet never produces the padding character. -/
theorem b64char_ne_61 (n : Nat) : b64char n ≠ 61 := by
  unfold b64char; split_ifs <;> omega

/-- Base64 characters are printable and are neither quotes nor
backslashes. -/
theorem b64char_safe (n : Nat) : 32 ≤ b64char n ∧ b64char n ≠ 34 ∧ b64char n ≠ 92 := by
  unfold b64char; split_ifs <;> omega

/-- Every byte of a base64 encoding is printable and is neither a quote
nor a backslash. -/
theorem b64enc_safe (bs : List Nat) :
    ∀ c ∈ b64enc bs, 32 ≤ c ∧ c ≠ 34 ∧ c ≠ 92 := by
  induction bs using b64enc.induct with
  | case1 => simp [b64enc]
  | case2 b0 =>
    intro c hc
    simp only [b64enc, List.mem_cons, List.not_mem_nil, or_false] at hc
    rcases hc with rfl | rfl | rfl | rfl
    · exact b64char_safe _
    · exact b64char_safe _
    · exact ⟨by omega, by omega, by omega⟩
    · exact ⟨by omega, by omega, by omega⟩
  | case3 b0 b1 =>
    intro c hc
    simp only [b64enc, List.mem_cons, List.not_mem_nil, or_false] at hc
    rcases hc with rfl | rfl | rfl | rfl
    · exact b64char_safe _
    · exact b64char_safe _
    · exact b64char_safe _
    · exact ⟨by omega, by omega, by omega⟩
  | case4 b0 b1 b2 rest ih =>
    intro c hc
    simp only [b64enc, List.mem_cons] at hc
    rcases hc with rfl | rfl | rfl | rfl | hmem
    · exact b64char_safe _
    · exact b64char_safe _
    · exact b64char_safe _
    · exact b64char_safe _
    · exact ih c hmem

/-- Base64 decoding inverts base64 encoding on byte sequences. -/
theorem b64_roundtrip (bs : List Nat) (h : ∀ b ∈ bs, b < 256) :
    b64dec (b64enc bs) = some bs := by
  induction bs using b64enc.induct with
  | case1 => rfl
  | case2 b0 =>
    have hb0 : b0 < 256 := h b0 (by simp)
    have h0 := b64val_b64char (b0 / 4) (by omega)
    have h1 := b64val_b64char (b0 % 4 * 16) (by omega)
    simp only [b64enc, b64dec, h0, h1, Option.bind_eq_bind, Option.some_bind]
    rw [if_pos (by simp)]
    have e0 : b0 / 4 * 4 + b0 % 4 * 16 / 16 = b0 := by omega
    rw [e0]
  | case3 b0 b1 =>
    have hb0 : b0 < 256 := h b0 (by simp)
    have hb1 : b1 < 256 := h b1 (by simp)
    have h0 := b64val_b64char (b0 / 4) (by omega)
    have h1 := b64val_b64char (b0 % 4 * 16 + b1 / 16) (by omega)
    have h2 := b64val_b64char (b1 % 16 * 4) (by omega)
    simp only [b64enc, b64dec, h0, h1, h2, Option.bind_eq_bind, Option.some_bind]
    rw [if_neg (by simp [b64char_ne_61]), if_pos (by simp)]
    have e0 : b0 / 4 * 4 + (b0 % 4 * 16 + b1 / 16) / 16 = b0 := by omega
    have e1 : (b0 % 4 * 16 + b1 / 16) % 16 * 16 + b1 % 16 * 4 / 4 = b1 := by omega
    rw [e0, e1]
  | case4 b0 b1 b2 rest ih =>
    have hb0 : b0 < 256 := h b0 (by simp)
    have hb1 : b1 < 256 := h b1 (by simp)
    have hb2 : b2 < 256 := h b2 (by simp)
    have ih2 := ih (fun x hx => h x (by simp [hx]))
    have h0 := b64val_b64char (b0 / 4) (by omega)
    have h1 := b64val_b64char (b0 % 4 * 16 + b1 / 16) (by omega)
    have h2 := b64val_b64char (b1 % 16 * 4 + b2 / 64) (by omega)
    have h3 := b64val_b64char (b2 % 64) (by omega)
    simp only [b64enc, b64dec, h0, h1, h2, h3, ih2, Option.bind_eq_bind,
      Option.some_bind]
    rw [if_neg (by simp [b64char_ne_61]), if_neg (by simp [b64char_ne_61])]
    have e0 : b0 / 4 * 4 + (b0 % 4 * 16 + b1 / 16) / 16 = b0 := by omega
    have e1 : (b0 % 4 * 16 + b1 / 16) % 16 * 16 + (b1 % 16 * 4 + b2 / 64) / 4 = b1 := by
      omega
    have e2 : (b1 % 16 * 4 + b2 / 64) % 4 * 64 + b2 % 64 = b2 := by omega
    rw [e0, e1, e2]

/-- A run of printable non-quote non-backslash bytes followed by a closing
quote scans to exactly that run. -/
theorem parse_safe (s : GoStr) (hs : ∀ c ∈ s, 32 ≤ c ∧ c ≠ 34 ∧ c ≠ 92) (rest : GoStr) :
    parseJStr (s ++ 34 :: rest) = some (s, rest) := by
  induction s with
  | nil =>
    rw [List.nil_append, parseJStr.eq_def]
    simp
  | cons c cs ih =>
    obtain ⟨h32, h34, h92⟩ := hs c (by simp)
    have h32' : ¬ c < 32 := by omega
    have ih2 := ih (fun x hx => hs x (by simp [hx]))
    rw [List.cons_append, parseJStr.eq_def]
    simp [h34, h92, h32', ih2]

/-- Scanning the escape of one byte prepends that byte to whatever the rest
scans to. -/
theorem escByte_step (b : Nat) (hb : b < 128) (l : GoStr) (r' : GoStr × GoStr)
    (hl : parseJStr l = some r') :
    parseJStr (escByte b ++ l) = some (b :: r'.1, r'.2) := by
  by_cases h34 : b = 34
  · subst h34
    show parseJStr (92 :: 34 :: l) = some (34 :: r'.1, r'.2)
    rw [parseJStr.eq_def]; simp [hl]
  by_cases h92 : b = 92
  · subst h92
    show parseJStr (92 :: 92 :: l) = some (92 :: r'.1, r'.2)
    rw [parseJStr.eq_def]; simp [hl]
  by_cases h10 : b = 10
  · subst h10
    show parseJStr (92 :: 110 :: l) = some (10 :: r'.1, r'.2)
    rw [parseJStr.eq_def]; simp [hl]
  by_cases h13 : b = 13
  · subst h13
    show parseJStr (92 :: 114 :: l) = some (13 :: r'.1, r'.2)
    rw [parseJStr.eq_def]; simp [hl]
  by_cases h9 : b = 9
  · subst h9
    show parseJStr (92 :: 116 :: l) = some (9 :: r'.1, r'.2)
    rw [parseJStr.eq_def]; simp [hl]
  by_cases hesc : b < 32 ∨ b = 60 ∨ b = 62 ∨ b = 38
  · have he : escByte b = [92, 117, 48, 48, hexDigit (b / 16), hexDigit (b % 16)] := by
      unfold escByte
      rw [if_neg h34, if_neg h92, if_neg h10, if_neg h13, if_neg h9, if_pos hesc]
    have hd1 : hexVal (hexDigit (b / 16)) = some (b / 16) :=
      hexVal_hexDigit _ (by omega)
    have hd2 : hexVal (hexDigit (b % 16)) = some (b % 16) :=
      hexVal_hexDigit _ (by omega)
    have h48 : hexVal 48 = some 0 := rfl
    rw [he]
    show parseJStr (92 :: 117 :: 48 :: 48 :: hexDigit (b / 16) ::
      hexDigit (b % 16) :: l) = some (b :: r'.1, r'.2)
    rw [parseJStr.eq_def]
    simp [h48, hd1, hd2, hl, Nat.div_add_mod, hb]
    omega
  · have he : escByte b = [b] := by
      unfold escByte
      rw [if_neg h34, if_neg h92, if_neg h10, if_neg h13, if_neg h9, if_neg hesc]
    have h32 : ¬ b < 32 := fun hlt => hesc (Or.inl hlt)
    rw [he]
    show parseJStr (b :: l) = some (b :: r'.1, r'.2)
    rw [parseJStr.eq_def]
    simp [h34, h92, h32, hl]

/-- Scanning the escape of an ASCII string followed by a closing quote
recovers the string. -/
theorem parse_escStr (s : GoStr) (hs : ∀ b ∈ s, b < 128) (rest : GoStr) :
    parseJStr (escStr s ++ 34 :: rest) = some (s, rest) := by
  induction s with
  | nil =>
    show parseJStr (34 :: rest) = some ([], rest)
    rw [parseJStr.eq_def]; simp
  | cons b bs ih =>
    have ih2 := ih (fun x hx => hs x (by simp [hx]))
    have step := escByte_step b (hs b (by simp)) (escStr bs ++ 34 :: rest)
      (bs, rest) ih2
    show parseJStr ((escByte b ++ escStr bs) ++ 34 :: rest) = some (b :: bs, rest)
    rw [List.append_assoc]
    exact step

/-- All bytes of a decimal rendering are digit bytes. -/
theorem natBytes_digits (n : Nat) : ∀ b ∈ natBytes n, 48 ≤ b ∧ b ≤ 57 := by
  induction n using Nat.strong_induction_on with
  | _ n ih =>
    rw [natBytes]
    split
    · intro b hb
      simp only [List.mem_singleton] at hb
      omega
    · next h =>
      intro b hb
      rcases List.mem_append.1 hb with h1 | h2
      · exact ih (n / 10) (by omega) b h1
      · simp only [List.mem_singleton] at h2
        omega

/-- A decimal rendering is never empty. -/
theorem natBytes_ne_nil (n : Nat) : natBytes n ≠ [] := by
  rw [natBytes]
  split
  · simp
  · simp

/-- Value of folding the decimal digits of `n` onto an accumulator. -/
theorem foldl_natBytes : ∀ n acc : Nat,
    (natBytes n).foldl (fun a d => a * 10 + (d - 48)) acc
      = acc * 10 ^ (natBytes n).length + n := by
  intro n
  induction n using Nat.strong_induction_on with
  | _ n ih =>
    intro acc
    rw [natBytes]
    split
    · simp only [List.foldl_cons, List.foldl_nil, List.length_cons,
        List.length_nil, zero_add, pow_one]
      omega
    · next h =>
      rw [List.foldl_append, ih (n / 10) (by omega) acc]
      simp only [List.foldl_cons, List.foldl_nil, List.length_append,
        List.length_cons, List.length_nil, zero_add]
      rw [pow_succ]
      have e1 : 48 + n % 10 - 48 = n % 10 := by omega
      rw [e1]
      have e2 : (acc * 10 ^ (natBytes (n / 10)).length + n / 10) * 10 + n % 10
          = acc * (10 ^ (natBytes (n / 10)).length * 10) + (n / 10 * 10 + n % 10) := by
        ring
      have e3 : n / 10 * 10 + n % 10 = n := by omega
      rw [e2, e3]

/-- A digit run followed by a non-digit byte splits at exactly that byte. -/
theorem takeWhile_digits_append (ds : GoStr) (hds : ∀ b ∈ ds, isDigitByte b = true)
    (r0 : Nat) (hr : isDigitByte r0 = false) (rs : GoStr) :
    (ds ++ r0 :: rs).takeWhile isDigitByte = ds ∧
      (ds ++ r0 :: rs).dropWhile isDigitByte = r0 :: rs := by
  induction ds with
  | nil => simp [List.takeWhile_cons, List.dropWhile_cons, hr]
  | cons d ds' ih =>
    have ih2 := ih (fun x hx => hds x (by simp [hx]))
    simp [List.takeWhile_cons, List.dropWhile_cons, hds d (by simp), ih2]

/-- The number scanner inverts the decimal rendering when a comma (the next
byte the envelope encoder emits) follows. -/
theorem parseNat_natBytes (n : Nat) (z : GoStr) :
    parseNatGo (natBytes n ++ 44 :: z) = some (n, 44 :: z) := by
  have hds : ∀ b ∈ natBytes n, isDigitByte b = true := by
    intro b hb
    have hd := natBytes_digits n b hb
    simp only [isDigitByte, Bool.and_eq_true, decide_eq_true_eq]
    omega
  obtain ⟨ht, hd⟩ := takeWhile_digits_append (natBytes n) hds 44 (by decide) z
  unfold parseNatGo
  rw [ht, hd, if_neg (natBytes_ne_nil n), foldl_natBytes n 0]
  simp

/-- C4: decoding inverts `MarshalEnvelope` — the JSON envelope reproduces
the room, username, timestamp and payload exactly, for every payload byte
sequence (empty and non-UTF8 included; the payload travels base64-encoded)
and every ASCII room and username. -/
theorem envelope_roundtrip (e : Envelope)
    (hr : ∀ b ∈ e.room, b < 128) (hu : ∀ b ∈ e.username, b < 128)
    (hp : ∀ b ∈ e.payload, b < 256) :
    unmarshalEnvelope (MarshalEnvelope e.room e.username e.ts e.payload) = some e := by
  have t1 : gostr "\",\"username\":\"" = 34 :: gostr ",\"username\":\"" := by decide
  have t2 : gostr "\",\"ts\":" = 34 :: gostr ",\"ts\":" := by decide
  have t3 : gostr "\"\x7d" = 34 :: gostr "\x7d" := by decide
  have t4 : gostr ",\"payload\":\"" = 44 :: gostr "\"payload\":\"" := by decide
  unfold MarshalEnvelope unmarshalEnvelope
  rw [t1, t2, t3, t4]
  simp only [List.append_assoc, List.cons_append, expectTok_append,
    expectTok_cons_append, Option.bind_eq_bind, Option.some_bind,
    parse_escStr e.room hr, parse_escStr e.username hu, parseNat_natBytes,
    parse_safe (b64enc e.payload) (b64enc_safe e.payload), expectTok_self,
    b64_roundtrip e.payload hp, if_pos rfl, if_true]

/-- Witness for C4: a concrete envelope whose room needs HTML escaping and
whose payload is empty-line-and-high-byte binary survives the round trip. -/
theorem envelope_roundtrip_witness :
    unmarshalEnvelope (MarshalEnvelope (gostr "a<b") (gostr "bob") 123 [0, 255, 10])
      = some ⟨gostr "a<b", gostr "bob", 123, [0, 255, 10]⟩ :=
  envelope_roundtrip ⟨gostr "a<b", gostr "bob", 123, [0, 255, 10]⟩
    (by decide) (by decide) (by decide)
